import Mathlib

/-!
Shallow embedding of `start-interactive-work-session.py` (g5k-utils).

Datetimes are modelled as `Int`: the number of microseconds since an
arbitrary midnight-aligned epoch (Python `datetime` values carry
microsecond resolution and compare chronologically).  A `timedelta` is
likewise an `Int` number of microseconds.  Day boundaries sit at the
multiples of `usecPerDay`, so `hour`, `replace(hour=h, minute=0,
second=0, microsecond=0)` and `timedelta(days=1)` translate to plain
integer arithmetic.
-/

def usecPerSec : Int := 1000000

def usecPerHour : Int := 3600000000

def usecPerDay : Int := 86400000000

/-- Hour-of-day field of a datetime (Python `dt.hour`), in `[0, 24)`. -/
def hourOf (t : Int) : Int := (t.emod usecPerDay).ediv usecPerHour

/-- Midnight of the day a datetime falls in (used to model `dt.replace`). -/
def floorDay (t : Int) : Int := t - t.emod usecPerDay

/-- Python `dt.replace(hour=h, minute=0, second=0, microsecond=0)`. -/
def replaceHour (t h : Int) : Int := floorDay t + h * usecPerHour

/-- Error taxonomy of the script, one constructor per raised condition. -/
inductive Err where
  | invalidArgument : Err
  | boundaryTooClose : Err
  | noClusterAvailable : List String → Err
  | jobNoLongerRunning : Err
deriving DecidableEq, Repr

/-- Lines 35-43 of `end_of_reservation`: the target close instant before
the margin is subtracted (same-day 19:00, same-day 09:00, or next-day
09:00 depending on `start_dt.hour`). -/
def reservation_target (start_dt : Int) : Int :=
  if 9 ≤ hourOf start_dt ∧ hourOf start_dt < 19 then
    replaceHour start_dt 19
  else if hourOf start_dt < 9 then
    replaceHour start_dt 9
  else
    replaceHour start_dt 9 + usecPerDay

/-- Embedding of `end_of_reservation(start_dt, delta_before_end)`
(source lines 34-52).  `delta_before_end` is a `timedelta` in
microseconds; the Python default is `timedelta(minutes=5)` i.e.
`300000000`. -/
def end_of_reservation (start_dt delta_before_end : Int) : Except Err Int :=
  let target := reservation_target start_dt
  if delta_before_end < 0 then
    .error .invalidArgument
  else
    let target := target - delta_before_end
    if target < start_dt then
      .error .boundaryTooClose
    else
      .ok target

/-- Spec-side definition, written from the spec's words for the
refinement claim C1: "target close is: same-day 19:00:00 if start's hour
is in [9,19); same-day 09:00:00 if start's hour is < 9; next-day
09:00:00 if start's hour is >= 19 (minutes/seconds/microseconds of the
target are zeroed)". -/
def spec_target_close (start : Int) : Int :=
  if 9 ≤ hourOf start ∧ hourOf start < 19 then
    floorDay start + 19 * usecPerHour
  else if hourOf start < 9 then
    floorDay start + 9 * usecPerHour
  else
    floorDay start + usecPerDay + 9 * usecPerHour

theorem reservation_target_eq_spec (start : Int) :
    reservation_target start = spec_target_close start := by
  unfold reservation_target spec_target_close replaceHour
  split
  · rfl
  · split
    · rfl
    · ring

instance {ε α : Type} [DecidableEq ε] [DecidableEq α] : DecidableEq (Except ε α)
  | .ok a, .ok b =>
    if h : a = b then .isTrue (h ▸ rfl) else .isFalse (fun he => h (Except.ok.inj he))
  | .error a, .error b =>
    if h : a = b then .isTrue (h ▸ rfl) else .isFalse (fun he => h (Except.error.inj he))
  | .ok _, .error _ => .isFalse Except.noConfusion
  | .error _, .ok _ => .isFalse Except.noConfusion

/-- Python `f"{n:02d}"`: zero-pad a rendered integer to at least two
characters (only one leading zero is ever needed for the values the
script formats). -/
def fmt02 (n : Int) : String := if 0 ≤ n ∧ n < 10 then "0" ++ n.repr else n.repr

/-- Embedding of `oar_walltime(start_dt, target_dt)` (source lines
54-70).  `int(delta.total_seconds())` truncates toward zero, which on
exact microsecond counts is `Int.tdiv` by `10^6`; Python `//` and `%`
on the resulting positive number of seconds are floor division and
modulus, i.e. `/` and `%` on `Int`. -/
def oar_walltime (start_dt target_dt : Int) : Except Err String :=
  let delta := target_dt - start_dt
  let delta_seconds := delta.tdiv usecPerSec
  if delta_seconds ≤ 0 then
    .error .invalidArgument
  else
    let hours := delta_seconds / 3600
    let rem1 := delta_seconds % 3600
    let minutes := rem1 / 60
    let seconds := rem1 % 60
    .ok (fmt02 hours ++ ":" ++ fmt02 minutes ++ ":" ++ fmt02 seconds)

/-- Truncation toward zero of a microsecond count to whole seconds is
non-positive exactly when the count is below one second. -/
theorem tdiv_usec_nonpos_iff (d : Int) : d.tdiv usecPerSec ≤ 0 ↔ d < usecPerSec := by
  unfold usecPerSec
  constructor
  · intro h
    by_contra hc
    push_neg at hc
    have h0 : (0 : Int) ≤ d := by omega
    rw [Int.tdiv_eq_ediv h0 (by norm_num)] at h
    have : (1 : Int) ≤ d / 1000000 := by
      rw [Int.le_ediv_iff_mul_le (by norm_num)]
      omega
    omega
  · intro h
    rcases le_or_lt 0 d with h0 | h0
    · rw [Int.tdiv_eq_ediv h0 (by norm_num)]
      have : d / 1000000 < 1 := by
        rw [Int.ediv_lt_iff_lt_mul (by norm_num)]
        omega
      omega
    · have hneg : d = -(-d) := by ring
      rw [hneg, Int.neg_tdiv]
      have : (0 : Int) ≤ (-d).tdiv 1000000 :=
        Int.tdiv_nonneg (by omega) (by norm_num)
      omega

example : end_of_reservation 36000000000 300000000 = .ok 68100000000 := by decide

example : end_of_reservation 68100000000 300000000 = .ok 68100000000 := by decide

example : end_of_reservation 68101000000 300000000 = .error .boundaryTooClose := by decide

example : end_of_reservation 36000000000 (-1) = .error .invalidArgument := by decide

/-- C1: for every start datetime and margin, when `end_of_reservation`
succeeds it returns the spec's target close (same-day 19:00 for hours
in [9,19), same-day 09:00 for hours below 9, next-day 09:00 otherwise,
with minutes/seconds/microseconds zeroed) minus the margin. -/
theorem end_of_reservation_refines_spec_close
    (start margin r : Int) (h : end_of_reservation start margin = .ok r) :
    r = spec_target_close start - margin := by
  unfold end_of_reservation at h
  rw [reservation_target_eq_spec] at h
  dsimp only at h
  split at h
  · exact absurd h (by simp)
  · split at h
    · exact absurd h (by simp)
    · exact (Except.ok.inj h).symm

/-- Witness for C1 at start 10:00:00 with the default 5-minute margin. -/
theorem end_of_reservation_refines_spec_close_witness :
    (68100000000 : Int) = spec_target_close 36000000000 - 300000000 :=
  end_of_reservation_refines_spec_close 36000000000 300000000 68100000000 (by decide)

/-- C2: `end_of_reservation` fails with `invalidArgument` for every
negative margin; for non-negative margins it fails with
`boundaryTooClose` exactly when the target close minus the margin is
earlier than the start; with the default 5-minute margin it succeeds at
18:55:00 and fails with `boundaryTooClose` at 18:55:01. -/
theorem end_of_reservation_error_conditions (start margin : Int) :
    (margin < 0 → end_of_reservation start margin = .error .invalidArgument)
    ∧ (0 ≤ margin →
        (end_of_reservation start margin = .error .boundaryTooClose
          ↔ spec_target_close start - margin < start))
    ∧ end_of_reservation 68100000000 300000000 = .ok 68100000000
    ∧ end_of_reservation 68101000000 300000000 = .error .boundaryTooClose := by
  refine ⟨?_, ?_, by decide, by decide⟩
  · intro hm
    unfold end_of_reservation
    simp [hm]
  · intro hm
    unfold end_of_reservation
    rw [reservation_target_eq_spec]
    dsimp only
    split
    · omega
    · split
      · simp_all
      · simp_all

/-- C6 counterexample: at 18:55:00 with the default 5-minute margin,
`end_of_reservation` succeeds and returns a time equal to its start, so
the claimed strict invariant `end > start` fails. -/
theorem end_of_reservation_end_eq_start_cex :
    end_of_reservation 68100000000 300000000 = .ok 68100000000
    ∧ ¬ ((68100000000 : Int) < 68100000000) := by
  exact ⟨by decide, by omega⟩

/-- C6 amended: whenever `end_of_reservation` succeeds, the returned
end is at least (but not necessarily strictly after) the start. -/
theorem end_of_reservation_end_ge_start
    (start margin r : Int) (h : end_of_reservation start margin = .ok r) :
    start ≤ r := by
  unfold end_of_reservation at h
  dsimp only at h
  split at h
  · exact absurd h (by simp)
  · split at h
    · exact absurd h (by simp)
    · have := Except.ok.inj h
      omega

/-- Witness for the amended C6 at start 10:00:00. -/
theorem end_of_reservation_end_ge_start_witness : (36000000000 : Int) ≤ 68100000000 :=
  end_of_reservation_end_ge_start 36000000000 300000000 68100000000 (by decide)

/-- C7 counterexample: a strictly positive sub-second duration (one
microsecond) is rejected by `oar_walltime`, so "succeeds for every
target strictly after start" fails. -/
theorem oar_walltime_subsecond_cex :
    oar_walltime 0 1 = .error .invalidArgument ∧ (0 : Int) < 1 := by
  exact ⟨by decide, by omega⟩

/-- C7 amended: `oar_walltime` fails with `invalidArgument` exactly
when the duration is under one whole second (this rejects zero and
negative durations, and also sub-second positive ones), and succeeds
exactly when the target is at least one second after the start. -/
theorem oar_walltime_fails_iff_subsecond (start target : Int) :
    (oar_walltime start target = .error .invalidArgument
      ↔ target - start < usecPerSec)
    ∧ ((∃ w, oar_walltime start target = .ok w) ↔ usecPerSec ≤ target - start) := by
  have hiff := tdiv_usec_nonpos_iff (target - start)
  unfold oar_walltime
  dsimp only
  constructor
  · split
    · simp_all
    · simp_all
  · split
    · simp_all
    · simp_all

/-- C8: every successful `oar_walltime` result is built from an
hours/minutes/seconds decomposition with minutes and seconds in
[0, 60), hours non-negative and unbounded, each component zero-padded
by `fmt02`, and the decomposition sums back exactly to the
whole-second duration the string was derived from. -/
theorem oar_walltime_roundtrip
    (start target : Int) (w : String) (h : oar_walltime start target = .ok w) :
    ∃ hrs mins secs : Int,
      w = fmt02 hrs ++ ":" ++ fmt02 mins ++ ":" ++ fmt02 secs
      ∧ 0 ≤ hrs ∧ 0 ≤ mins ∧ mins < 60 ∧ 0 ≤ secs ∧ secs < 60
      ∧ hrs * 3600 + mins * 60 + secs = (target - start).tdiv usecPerSec := by
  unfold oar_walltime at h
  dsimp only at h
  split at h
  · exact absurd h (by simp)
  · rename_i hpos
    push_neg at hpos
    refine ⟨(target - start).tdiv usecPerSec / 3600,
            (target - start).tdiv usecPerSec % 3600 / 60,
            (target - start).tdiv usecPerSec % 3600 % 60,
            (Except.ok.inj h).symm, ?_, ?_, ?_, ?_, ?_, ?_⟩ <;> omega

/-- Witness for C8: a 9-hour-55-minute window renders as "09:55:00" and
decomposes back to 35700 whole seconds. -/
theorem oar_walltime_roundtrip_witness :
    ∃ hrs mins secs : Int,
      "09:55:00" = fmt02 hrs ++ ":" ++ fmt02 mins ++ ":" ++ fmt02 secs
      ∧ 0 ≤ hrs ∧ 0 ≤ mins ∧ mins < 60 ∧ 0 ≤ secs ∧ secs < 60
      ∧ hrs * 3600 + mins * 60 + secs = ((35700000000 : Int) - 0).tdiv usecPerSec :=
  oar_walltime_roundtrip 0 35700000000 "09:55:00" (by decide)

/-- Reservation record of a node in the cluster-status response: only
its `scheduled_at` timestamp (whole seconds) is consulted. -/
structure Reservation where
  scheduled_at : Int
deriving DecidableEq, Repr

/-- Node record of the cluster-status response, restricted to the
fields `node_usable` reads: the `soft` state string (the "free" flag of
the spec) and the reservation list. -/
structure Node where
  soft : String
  reservations : List Reservation
deriving DecidableEq, Repr

/-- Python `datetime.fromtimestamp`: whole seconds to a microsecond
datetime (the epoch of the model is timestamp 0). -/
def fromtimestamp (ts : Int) : Int := ts * usecPerSec

/-- Embedding of the `node_usable` closure inside `get_usable_nodes`
(source lines 161-169): a node is kept when `soft == 'free'` and, if it
has reservations, the minimum `scheduled_at` converted to a datetime is
not before `target_dt`. -/
def node_usable (node : Node) (target_dt : Int) : Bool :=
  if node.soft ≠ "free" then
    false
  else
    match node.reservations with
    | [] => true
    | r :: rs =>
      let first := (rs.map (fun x => x.scheduled_at)).foldl min r.scheduled_at
      if fromtimestamp first < target_dt then false else true

/-- Embedding of `get_usable_nodes` after the HTTP fetch (source line
171): the response's node dictionary is a list of name/node pairs and
the usable ones are kept in order. -/
def get_usable_nodes (nodes : List (String × Node)) (target_dt : Int) :
    List (String × Node) :=
  nodes.filter (fun p => node_usable p.2 target_dt)

theorem le_foldl_min_iff (t a : Int) (l : List Int) :
    t ≤ l.foldl min a ↔ t ≤ a ∧ ∀ x ∈ l, t ≤ x := by
  induction l generalizing a with
  | nil => simp
  | cons b tl ih =>
    simp only [List.foldl_cons, ih (min a b), le_min_iff, List.mem_cons]
    constructor
    · rintro ⟨⟨h1, h2⟩, h3⟩
      refine ⟨h1, fun x hx => ?_⟩
      rcases hx with rfl | hx
      · exact h2
      · exact h3 x hx
    · rintro ⟨h1, h2⟩
      exact ⟨⟨h1, h2 b (Or.inl rfl)⟩, fun x hx => h2 x (Or.inr hx)⟩

theorem foldl_min_mul (l : List Int) (a k : Int) (hk : 0 ≤ k) :
    (l.foldl min a) * k = (l.map (fun x => x * k)).foldl min (a * k) := by
  induction l generalizing a with
  | nil => rfl
  | cons b tl ih =>
    simp only [List.foldl_cons, List.map_cons]
    rw [ih (min a b), min_mul_of_nonneg a b hk]

/-- C4: a node is classified usable exactly when its state is "free"
and either it has no reservations or every (equivalently, the earliest)
reservation is scheduled at or after `target_dt`; a node whose state is
not "free" is never usable. -/
theorem node_usable_characterization (n : Node) (target_dt : Int) :
    (node_usable n target_dt = true ↔
      n.soft = "free"
      ∧ (n.reservations = []
          ∨ ∀ r ∈ n.reservations, target_dt ≤ fromtimestamp r.scheduled_at))
    ∧ (n.soft ≠ "free" → node_usable n target_dt = false) := by
  constructor
  · unfold node_usable
    split
    · simp_all
    · rename_i hfree
      push_neg at hfree
      match hres : n.reservations with
      | [] => simp [hfree]
      | r :: rs =>
        simp only [hfree, true_and]
        have hmul := foldl_min_mul (rs.map (fun x => x.scheduled_at)) r.scheduled_at
          usecPerSec (by unfold usecPerSec; omega)
        have hle := le_foldl_min_iff target_dt (r.scheduled_at * usecPerSec)
          ((rs.map (fun x => x.scheduled_at)).map (fun x => x * usecPerSec))
        split
        · rename_i hlt
          unfold fromtimestamp at hlt
          simp only [Bool.false_eq_true, false_iff, not_or]
          refine ⟨by simp, fun hall => ?_⟩
          have : target_dt ≤
              ((rs.map (fun x => x.scheduled_at)).foldl min r.scheduled_at) * usecPerSec := by
            rw [hmul, hle]
            refine ⟨hall r (List.mem_cons_self r rs), fun x hx => ?_⟩
            simp only [List.mem_map] at hx
            obtain ⟨y, hy, rfl⟩ := hx
            obtain ⟨z, hz, rfl⟩ := hy
            exact hall z (List.mem_cons_of_mem r hz)
          omega
        · rename_i hge
          unfold fromtimestamp at hge
          push_neg at hge
          simp only [true_iff]
          right
          intro s hs
          rw [hmul, hle] at hge
          rcases List.mem_cons.mp hs with rfl | hs
          · exact hge.1
          · refine hge.2 (s.scheduled_at * usecPerSec) ?_
            exact List.mem_map.mpr ⟨s.scheduled_at, List.mem_map.mpr ⟨s, hs, rfl⟩, rfl⟩
  · intro hfree
    unfold node_usable
    simp [hfree]

theorem foldl_min_mem (a : Int) (l : List Int) : l.foldl min a ∈ a :: l := by
  induction l generalizing a with
  | nil => simp
  | cons b t ih =>
    simp only [List.foldl_cons]
    rcases List.mem_cons.mp (ih (min a b)) with h | h
    · rw [h]
      rcases min_choice a b with hm | hm <;> rw [hm] <;> simp
    · exact List.mem_cons.mpr (Or.inr (List.mem_cons.mpr (Or.inr h)))

theorem foldl_min_le (a : Int) (l : List Int) : ∀ y ∈ a :: l, l.foldl min a ≤ y := by
  have h := (le_foldl_min_iff (l.foldl min a) a l).mp le_rfl
  intro y hy
  rcases List.mem_cons.mp hy with rfl | hy
  · exact h.1
  · exact h.2 y hy

theorem foldl_min_perm {x1 x2 : Int} {t1 t2 : List Int}
    (h : (x1 :: t1).Perm (x2 :: t2)) :
    t1.foldl min x1 = t2.foldl min x2 := by
  apply le_antisymm
  · exact foldl_min_le x1 t1 _ (h.symm.subset (foldl_min_mem x2 t2))
  · exact foldl_min_le x2 t2 _ (h.subset (foldl_min_mem x1 t1))

/-- C10: usability of a node (and hence the set of node names that
`get_usable_nodes` keeps) only depends on the multiset of reservation
timestamps: permuting the reservation list changes nothing, because the
earliest reservation is computed as a minimum, not taken positionally. -/
theorem node_usable_perm_invariant (soft : String) (res1 res2 : List Reservation)
    (target_dt : Int) (h : res1.Perm res2) :
    node_usable ⟨soft, res1⟩ target_dt = node_usable ⟨soft, res2⟩ target_dt
    ∧ ∀ (name : String) (pre post : List (String × Node)),
        (get_usable_nodes (pre ++ (name, ⟨soft, res1⟩) :: post) target_dt).map Prod.fst
          = (get_usable_nodes (pre ++ (name, ⟨soft, res2⟩) :: post) target_dt).map Prod.fst := by
  have husable :
      node_usable ⟨soft, res1⟩ target_dt = node_usable ⟨soft, res2⟩ target_dt := by
    unfold node_usable
    match hres1 : res1, hres2 : res2 with
    | [], [] => rfl
    | [], r2 :: rs2 => exact absurd (List.perm_nil.mp h.symm) (by simp)
    | r1 :: rs1, [] => exact absurd (List.perm_nil.mp h) (by simp)
    | r1 :: rs1, r2 :: rs2 =>
      have hm := h.map (fun x => x.scheduled_at)
      simp only [List.map_cons] at hm
      simp only [foldl_min_perm hm]
  refine ⟨husable, fun name pre post => ?_⟩
  unfold get_usable_nodes
  rw [List.filter_append, List.filter_append, List.filter_cons, List.filter_cons]
  cases hb : node_usable ⟨soft, res2⟩ target_dt with
  | false => simp [husable, hb]
  | true => simp [husable, hb]

/-- Witness for C10 on a two-element reservation list swap. -/
theorem node_usable_perm_invariant_witness :
    node_usable (Node.mk "free" [Reservation.mk 5, Reservation.mk 3]) 0
      = node_usable (Node.mk "free" [Reservation.mk 3, Reservation.mk 5]) 0 :=
  (node_usable_perm_invariant "free" [Reservation.mk 5, Reservation.mk 3]
    [Reservation.mk 3, Reservation.mk 5] 0
    (List.Perm.swap (Reservation.mk 3) (Reservation.mk 5) [])).1

/-- Loop body of `select_cluster_first_fit` (source lines 174-179):
walk the preference list in order, returning the first pair whose
usable-node set is non-empty; `names` is the cluster-name list carried
by the final error (`[x[0] for x in preferred_clusters]`). -/
def select_fit_go (fetch : String → String → List (String × Node)) (target_dt : Int)
    (names : List String) : List (String × String) → Except Err (String × String)
  | [] => .error (.noClusterAvailable names)
  | p :: rest =>
    if 0 < (get_usable_nodes (fetch p.2 p.1) target_dt).length then
      .ok p
    else
      select_fit_go fetch target_dt names rest

/-- Embedding of `select_cluster_first_fit(preferred_clusters,
target_dt)`; the HTTP status query is abstracted as `fetch site
cluster`, the node list of the response. -/
def select_cluster_first_fit (fetch : String → String → List (String × Node))
    (preferred_clusters : List (String × String)) (target_dt : Int) :
    Except Err (String × String) :=
  select_fit_go fetch target_dt (preferred_clusters.map Prod.fst) preferred_clusters

theorem select_fit_go_ok_iff (fetch : String → String → List (String × Node))
    (target_dt : Int) (names : List String) (l : List (String × String)) :
    ∀ q : String × String,
      select_fit_go fetch target_dt names l = .ok q ↔
        ∃ l1 l2, l = l1 ++ q :: l2
          ∧ (∀ p ∈ l1, (get_usable_nodes (fetch p.2 p.1) target_dt).length = 0)
          ∧ 0 < (get_usable_nodes (fetch q.2 q.1) target_dt).length := by
  induction l with
  | nil =>
    intro q
    simp [select_fit_go]
  | cons p rest ih =>
    intro q
    unfold select_fit_go
    split
    · rename_i hpos
      constructor
      · intro h
        have hpq : p = q := Except.ok.inj h
        subst hpq
        exact ⟨[], rest, rfl, by simp, hpos⟩
      · rintro ⟨l1, l2, heq, hzero, hq⟩
        cases l1 with
        | nil =>
          simp only [List.nil_append, List.cons.injEq] at heq
          rw [heq.1]
        | cons a l1' =>
          simp only [List.cons_append, List.cons.injEq] at heq
          have hz := hzero a (List.mem_cons_self a l1')
          rw [← heq.1] at hz
          omega
    · rename_i hneg
      rw [ih q]
      constructor
      · rintro ⟨l1, l2, heq, hz, hq⟩
        refine ⟨p :: l1, l2, by rw [heq, List.cons_append], fun x hx => ?_, hq⟩
        rcases List.mem_cons.mp hx with rfl | hx
        · omega
        · exact hz x hx
      · rintro ⟨l1, l2, heq, hz, hq⟩
        cases l1 with
        | nil =>
          simp only [List.nil_append, List.cons.injEq] at heq
          rw [← heq.1] at hq
          omega
        | cons a l1' =>
          simp only [List.cons_append, List.cons.injEq] at heq
          obtain ⟨rfl, hrest⟩ := heq
          exact ⟨l1', l2, hrest, fun x hx => hz x (List.mem_cons.mpr (Or.inr hx)), hq⟩

theorem select_fit_go_error_iff (fetch : String → String → List (String × Node))
    (target_dt : Int) (names : List String) (l : List (String × String)) :
    ∀ e : Err,
      select_fit_go fetch target_dt names l = .error e ↔
        e = .noClusterAvailable names
          ∧ ∀ p ∈ l, (get_usable_nodes (fetch p.2 p.1) target_dt).length = 0 := by
  induction l with
  | nil =>
    intro e
    constructor
    · intro h
      exact ⟨(Except.error.inj h).symm, by simp⟩
    · rintro ⟨rfl, _⟩
      rfl
  | cons p rest ih =>
    intro e
    unfold select_fit_go
    split
    · rename_i hpos
      constructor
      · intro h
        exact absurd h (by simp)
      · rintro ⟨_, hall⟩
        have := hall p (List.mem_cons_self p rest)
        omega
    · rename_i hneg
      rw [ih e]
      constructor
      · rintro ⟨rfl, hall⟩
        refine ⟨rfl, fun x hx => ?_⟩
        rcases List.mem_cons.mp hx with rfl | hx
        · omega
        · exact hall x hx
      · rintro ⟨rfl, hall⟩
        exact ⟨rfl, fun x hx => hall x (List.mem_cons.mpr (Or.inr hx))⟩

/-- C3: `select_cluster_first_fit` returns exactly the first pair in
preference order whose usable-node set is non-empty (every earlier pair
having zero usable nodes), and fails with `noClusterAvailable` carrying
the cluster names of the whole list exactly when every pair has zero
usable nodes. -/
theorem select_cluster_first_fit_spec (fetch : String → String → List (String × Node))
    (preferred_clusters : List (String × String)) (target_dt : Int)
    (q : String × String) :
    (select_cluster_first_fit fetch preferred_clusters target_dt = .ok q ↔
      ∃ l1 l2, preferred_clusters = l1 ++ q :: l2
        ∧ (∀ p ∈ l1, (get_usable_nodes (fetch p.2 p.1) target_dt).length = 0)
        ∧ 0 < (get_usable_nodes (fetch q.2 q.1) target_dt).length)
    ∧ (select_cluster_first_fit fetch preferred_clusters target_dt
          = .error (.noClusterAvailable (preferred_clusters.map Prod.fst)) ↔
        ∀ p ∈ preferred_clusters,
          (get_usable_nodes (fetch p.2 p.1) target_dt).length = 0) := by
  constructor
  · exact select_fit_go_ok_iff fetch target_dt (preferred_clusters.map Prod.fst)
      preferred_clusters q
  · rw [select_cluster_first_fit,
      select_fit_go_error_iff fetch target_dt (preferred_clusters.map Prod.fst)
        preferred_clusters (.noClusterAvailable (preferred_clusters.map Prod.fst))]
    simp

/-- Python substring test `pat in s` on character lists: some suffix of
`s` starts with `pat`. -/
def hasSubstrList (s pat : List Char) : Bool :=
  match s with
  | [] => pat.isEmpty
  | _ :: t => pat.isPrefixOf s || hasSubstrList t pat

/-- Python `pat in s` on strings. -/
def strContains (s pat : String) : Bool := hasSubstrList s.data pat.data

/-- Success sentinel scanned for in the captured stdout (line 227). -/
def successSentinel : String := "Setup has run successfully"

/-- Failure sentinel scanned for in the captured stdout (line 230). -/
def failureSentinel : String := "Setup has run UNsuccessfully"

/-- Python `s.lower()`, character-wise. -/
def lowerStr (s : String) : List Char := s.data.map Char.toLower

/-- One polled observation of `wait_for_setup_to_finish`: the log
content read from `{log_prefix}.stdout` and the job `state` string the
status request would return at that poll. -/
structure Obs where
  log : String
  state : String
deriving DecidableEq, Repr

/-- Embedding of the `wait_for_setup_to_finish` loop (source lines
222-242) over a finite sequence of polled observations: the first
observation containing the success sentinel returns `true`, else the
failure sentinel returns `false`, else a lower-cased job state other
than "running" raises; otherwise the loop sleeps and polls the next
observation (`none` when the sequence is exhausted undecided). -/
def wait_for_setup_to_finish : List Obs → Option (Except Err Bool)
  | [] => none
  | o :: rest =>
    if strContains o.log successSentinel then some (.ok true)
    else if strContains o.log failureSentinel then some (.ok false)
    else if lowerStr o.state ≠ "running".data then some (.error .jobNoLongerRunning)
    else wait_for_setup_to_finish rest

example :
    wait_for_setup_to_finish
      [Obs.mk "booting\n" "Running", Obs.mk "booting\nSetup has run successfully\n" "Running"]
      = some (.ok true) := by decide

example :
    wait_for_setup_to_finish
      [Obs.mk "Setup has run UNsuccessfully\n" "running"] = some (.ok false) := by decide

example :
    wait_for_setup_to_finish [Obs.mk "booting\n" "Error"]
      = some (.error .jobNoLongerRunning) := by decide

example : wait_for_setup_to_finish [Obs.mk "booting\n" "Running"] = none := by decide

/-- C5: over any finite observation sequence, the loop halts exactly at
the first deciding observation; a success sentinel wins, else a failure
sentinel, else a (case-insensitively compared) non-running job state
raises `jobNoLongerRunning`, which is never reported as the `failed`
outcome. -/
theorem wait_for_setup_to_finish_spec (obs : List Obs) (r : Except Err Bool) :
    wait_for_setup_to_finish obs = some r ↔
      ∃ pre o post, obs = pre ++ o :: post
        ∧ (∀ o' ∈ pre, strContains o'.log successSentinel = false
            ∧ strContains o'.log failureSentinel = false
            ∧ lowerStr o'.state = "running".data)
        ∧ ((strContains o.log successSentinel = true ∧ r = .ok true)
           ∨ (strContains o.log successSentinel = false
              ∧ strContains o.log failureSentinel = true ∧ r = .ok false)
           ∨ (strContains o.log successSentinel = false
              ∧ strContains o.log failureSentinel = false
              ∧ lowerStr o.state ≠ "running".data
              ∧ r = .error .jobNoLongerRunning)) := by
  induction obs with
  | nil => simp [wait_for_setup_to_finish]
  | cons o os ih =>
    by_cases hs : strContains o.log successSentinel = true
    · simp only [wait_for_setup_to_finish, hs, if_true]
      constructor
      · intro h
        exact ⟨[], o, os, rfl, by simp, Or.inl ⟨hs, (Option.some.inj h).symm⟩⟩
      · rintro ⟨pre, o', post, heq, hund, hdec⟩
        cases pre with
        | nil =>
          simp only [List.nil_append, List.cons.injEq] at heq
          obtain ⟨rfl, rfl⟩ := heq
          rcases hdec with ⟨_, rfl⟩ | ⟨hf, _, _⟩ | ⟨hf, _, _, _⟩
          · rfl
          · rw [hs] at hf; exact absurd hf (by simp)
          · rw [hs] at hf; exact absurd hf (by simp)
        | cons a pre' =>
          simp only [List.cons_append, List.cons.injEq] at heq
          obtain ⟨rfl, _⟩ := heq
          have := (hund o (List.mem_cons_self o pre')).1
          rw [hs] at this
          exact absurd this (by simp)
    · have hs' : strContains o.log successSentinel = false := by
        exact Bool.not_eq_true _ ▸ (by simpa using hs)
      by_cases hf : strContains o.log failureSentinel = true
      · simp only [wait_for_setup_to_finish, hs', Bool.false_eq_true, if_false, hf, if_true]
        constructor
        · intro h
          exact ⟨[], o, os, rfl, by simp, Or.inr (Or.inl ⟨hs', hf, (Option.some.inj h).symm⟩)⟩
        · rintro ⟨pre, o', post, heq, hund, hdec⟩
          cases pre with
          | nil =>
            simp only [List.nil_append, List.cons.injEq] at heq
            obtain ⟨rfl, rfl⟩ := heq
            rcases hdec with ⟨hts, _⟩ | ⟨_, _, rfl⟩ | ⟨_, htf, _, _⟩
            · rw [hts] at hs'; exact absurd hs' (by simp)
            · rfl
            · rw [hf] at htf; exact absurd htf (by simp)
          | cons a pre' =>
            simp only [List.cons_append, List.cons.injEq] at heq
            obtain ⟨rfl, _⟩ := heq
            have := (hund o (List.mem_cons_self o pre')).2.1
            rw [hf] at this
            exact absurd this (by simp)
      · have hf' : strContains o.log failureSentinel = false := by
          exact Bool.not_eq_true _ ▸ (by simpa using hf)
        by_cases hrun : lowerStr o.state = "running".data
        · simp only [wait_for_setup_to_finish, hs', hf', Bool.false_eq_true, if_false,
            hrun, ne_eq, not_true_eq_false]
          rw [ih]
          constructor
          · rintro ⟨pre, o', post, heq, hund, hdec⟩
            exact ⟨o :: pre, o', post, by rw [heq, List.cons_append],
              fun x hx => by
                rcases List.mem_cons.mp hx with rfl | hx
                · exact ⟨hs', hf', hrun⟩
                · exact hund x hx,
              hdec⟩
          · rintro ⟨pre, o', post, heq, hund, hdec⟩
            cases pre with
            | nil =>
              simp only [List.nil_append, List.cons.injEq] at heq
              obtain ⟨rfl, rfl⟩ := heq
              rcases hdec with ⟨hts, _⟩ | ⟨_, htf, _⟩ | ⟨_, _, hrun2, _⟩
              · rw [hts] at hs'; exact absurd hs' (by simp)
              · rw [htf] at hf'; exact absurd hf' (by simp)
              · exact absurd hrun hrun2
            | cons a pre' =>
              simp only [List.cons_append, List.cons.injEq] at heq
              obtain ⟨rfl, hrest⟩ := heq
              exact ⟨pre', o', post, hrest,
                fun x hx => hund x (List.mem_cons.mpr (Or.inr hx)), hdec⟩
        · simp only [wait_for_setup_to_finish, hs', hf', Bool.false_eq_true, if_false,
            ne_eq, hrun, not_false_eq_true, if_true]
          constructor
          · intro h
            exact ⟨[], o, os, rfl, by simp,
              Or.inr (Or.inr ⟨hs', hf', hrun, (Option.some.inj h).symm⟩)⟩
          · rintro ⟨pre, o', post, heq, hund, hdec⟩
            cases pre with
            | nil =>
              simp only [List.nil_append, List.cons.injEq] at heq
              obtain ⟨rfl, rfl⟩ := heq
              rcases hdec with ⟨hts, _⟩ | ⟨_, htf, _⟩ | ⟨_, _, _, rfl⟩
              · rw [hts] at hs'; exact absurd hs' (by simp)
              · rw [htf] at hf'; exact absurd hf' (by simp)
              · rfl
            | cons a pre' =>
              simp only [List.cons_append, List.cons.injEq] at heq
              obtain ⟨rfl, _⟩ := heq
              exact absurd (hund o (List.mem_cons_self o pre')).2.2 hrun

/-- Optional stages of `main` after the reservation response is
received (source lines 284-296). -/
inductive Stage where
  | waitJobStart : Stage
  | removeSubscript : Stage
  | waitSetup : Stage
deriving DecidableEq, Repr

/-- Embedding of the tail of `main` (source lines 284-296): which
stages run and with which process exit code the run ends.  `remove_ok`
abstracts whether `os.remove(subscript_path)` succeeds; when it raises
`OSError` the handler prints a message and calls `sys.exit(1)`, which
terminates the process, so nothing after it executes. -/
def main_tail (wait_job_running clear_subscript wait_job_setup_finished remove_ok : Bool) :
    List Stage × Option Nat :=
  let s1 : List Stage :=
    if wait_job_running || clear_subscript || wait_job_setup_finished then
      [Stage.waitJobStart]
    else
      []
  if clear_subscript then
    if remove_ok then
      (s1 ++ [Stage.removeSubscript]
        ++ (if wait_job_setup_finished then [Stage.waitSetup] else []), none)
    else
      (s1 ++ [Stage.removeSubscript], some 1)
  else
    (s1 ++ (if wait_job_setup_finished then [Stage.waitSetup] else []), none)

/-- C9 counterexample: with subscript clearing and setup waiting both
requested, a failed removal ends the process with exit code 1 and the
setup-wait stage never executes, contrary to the claim that it still
executes afterwards. -/
theorem main_tail_removal_failure_cex :
    (main_tail false true true false).2 = some 1
    ∧ Stage.waitSetup ∉ (main_tail false true true false).1 := by decide

/-- C9 amended: a failed subscript removal is caught and reported as
exit status 1 (never an uncaught error), but it is fatal to the rest of
the run: the setup-wait stage is skipped even when requested; when the
removal succeeds the run continues normally and the setup-wait stage
executes exactly when requested. -/
theorem main_tail_removal_failure_behavior
    (wait_job_running wait_job_setup_finished : Bool) :
    ((main_tail wait_job_running true wait_job_setup_finished false).2 = some 1
      ∧ Stage.waitSetup ∉ (main_tail wait_job_running true wait_job_setup_finished false).1)
    ∧ ((main_tail wait_job_running true wait_job_setup_finished true).2 = none
      ∧ (Stage.waitSetup ∈ (main_tail wait_job_running true wait_job_setup_finished true).1
          ↔ wait_job_setup_finished = true)) := by
  cases wait_job_running <;> cases wait_job_setup_finished <;> decide
